import Mathlib

/-!
# Verification of the webpack-extract-translation-keys-regex plugin

A shallow embedding of the two source files of the repository
(`key-generator.js` and the plugin file) together with proofs about the
embedded definitions.

Modelling conventions:
* JS strings are modelled as `List Char`.
* JS numbers are exact integers (`Int`/`Nat`) except where the source uses
  the 32-bit coercion `| 0`, which is modelled faithfully by `jsToInt32`.
* Reading a JS array outside its bounds yields `undefined`; where the source
  can concatenate `undefined` into a string we model the JS coercion to the
  string `"undefined"` (`jsStr`).
* The stateful regex scan of a module is abstracted as a list of match
  records (`MatchRec`): the engine is a fold over the matches the host regex
  produces, which is the structure of the `while ((match = regex.exec(...)))`
  loop.
* `source.replace(new RegExp(sanitizeForRegexp(original), 'gm'), r)` replaces
  every literal occurrence of `original` (the escaping makes the pattern
  literal), so it is modelled as literal global replacement `replaceAll`.
-/

/-! ## The identifier generator (`key-generator.js`) -/

/-- The alphabet built by the loop in `key-generator.js`:
character codes 48..122 with 58..64 and 91..96 excluded. -/
def alphabet : List Char :=
  ((List.range' 48 75).filter
    (fun i => decide (¬ (58 ≤ i ∧ i ≤ 64) ∧ ¬ (91 ≤ i ∧ i ≤ 96)))).map Char.ofNat

/-- The alphabet as the claim describes it: ASCII digits, uppercase letters,
lowercase letters, in code-point order. -/
def specAlphabet : List Char :=
  "0123456789ABCDEFGHIJKLMNOPQRSTUVWXYZabcdefghijklmnopqrstuvwxyz".data

theorem alphabet_eq_spec : alphabet = specAlphabet := by decide

theorem alphabet_length : alphabet.length = 62 := by decide

/-- JS `x | 0`: conversion of an integral number to a signed 32-bit integer. -/
def jsToInt32 (x : Int) : Int :=
  (x + 2147483648).emod 4294967296 - 2147483648

/-- JS division truncated toward zero (the result of `a / b` fed to `| 0`
for exactly representable quotients). Only used with positive `b`. -/
def jsTruncDiv (a : Int) (b : Nat) : Int :=
  if 0 ≤ a then ((a.toNat / b : Nat) : Int) else -(((-a).toNat / b : Nat) : Int)

/-- JS `%` on integers: remainder with the sign of the dividend. -/
def jsRem (a : Int) (b : Nat) : Int :=
  if 0 ≤ a then ((a.toNat % b : Nat) : Int) else -(((-a).toNat % b : Nat) : Int)

/-- `alphabet[i]` for a possibly out-of-range JS index: `undefined` is `none`. -/
def alphabetAt (i : Int) : Option Char :=
  if h : 0 ≤ i ∧ i.toNat < alphabet.length then
    some (alphabet.get ⟨i.toNat, h.2⟩)
  else none

/-- JS string coercion used by `alphabet[r % len] + key`: a character, or the
string `"undefined"` when the index was out of range. -/
def jsStr : Option Char → List Char
  | some c => [c]
  | none => "undefined".data

theorem jsToInt32_bounds (x : Int) :
    -2147483648 ≤ jsToInt32 x ∧ jsToInt32 x < 2147483648 := by
  unfold jsToInt32
  have h1 : 0 ≤ (x + 2147483648).emod 4294967296 :=
    Int.emod_nonneg _ (by decide)
  have h2 : (x + 2147483648).emod 4294967296 < 4294967296 :=
    Int.emod_lt_of_pos _ (by decide)
  omega

theorem jsToInt32_eq_self {x : Int}
    (h1 : -2147483648 ≤ x) (h2 : x < 2147483648) : jsToInt32 x = x := by
  unfold jsToInt32
  have : (x + 2147483648).emod 4294967296 = x + 2147483648 :=
    Int.emod_eq_of_lt (by omega) (by omega)
  omega

theorem jsTruncDiv_natAbs (a : Int) (b : Nat) :
    (jsTruncDiv a b).natAbs = a.natAbs / b := by
  unfold jsTruncDiv
  by_cases h : 0 ≤ a
  · simp only [if_pos h]
    have : a.toNat = a.natAbs := by omega
    rw [this]
    exact Int.natAbs_ofNat _
  · simp only [if_neg h]
    have : (-a).toNat = a.natAbs := by omega
    rw [this, Int.natAbs_neg]
    exact Int.natAbs_ofNat _

theorem jsTruncDiv_ofNat (m b : Nat) :
    jsTruncDiv (m : Int) b = ((m / b : Nat) : Int) := by
  unfold jsTruncDiv
  simp [Int.toNat_ofNat]

theorem jsRem_ofNat (m b : Nat) : jsRem (m : Int) b = ((m % b : Nat) : Int) := by
  unfold jsRem
  simp [Int.toNat_ofNat]

/-- The digit-producing loop of the generator (`do { ... } while (remainder)`),
with the `| 0` coercion modelled faithfully. `r` is the current remainder and
`acc` the key built so far (digits are prepended). -/
def genLoop (r : Int) (acc : List Char) : List Char :=
  if jsToInt32 (jsTruncDiv r alphabet.length) = 0 then
    jsStr (alphabetAt (jsRem r alphabet.length)) ++ acc
  else
    genLoop (jsToInt32 (jsTruncDiv r alphabet.length))
      (jsStr (alphabetAt (jsRem r alphabet.length)) ++ acc)
termination_by r.natAbs
decreasing_by
  rename_i hne
  rw [alphabet_length] at hne ⊢
  have hb : (jsTruncDiv r 62).natAbs = r.natAbs / 62 := jsTruncDiv_natAbs r 62
  by_cases hq : r.natAbs / 62 < 2147483648
  · have hfit : jsToInt32 (jsTruncDiv r 62) = jsTruncDiv r 62 := by
      apply jsToInt32_eq_self <;> omega
    rw [hfit] at hne ⊢
    have h0 : (jsTruncDiv r 62).natAbs ≠ 0 := by omega
    rw [hb] at h0 ⊢
    omega
  · have hbd := jsToInt32_bounds (jsTruncDiv r 62)
    omega

/-- Fuel-indexed mirror of `genLoop`, used to evaluate the generator on
concrete inputs (`genLoop` itself is defined by well-founded recursion and
does not reduce in the kernel). -/
def genLoopO : Nat → Int → List Char → Option (List Char)
  | 0, _, _ => none
  | fuel + 1, r, acc =>
    if jsToInt32 (jsTruncDiv r alphabet.length) = 0 then
      some (jsStr (alphabetAt (jsRem r alphabet.length)) ++ acc)
    else
      genLoopO fuel (jsToInt32 (jsTruncDiv r alphabet.length))
        (jsStr (alphabetAt (jsRem r alphabet.length)) ++ acc)

theorem genLoopO_sound :
    ∀ (fuel : Nat) (r : Int) (acc out : List Char),
      genLoopO fuel r acc = some out → genLoop r acc = out := by
  intro fuel
  induction fuel with
  | zero => intro r acc out h; simp [genLoopO] at h
  | succ n ih =>
    intro r acc out h
    rw [genLoop.eq_1]
    rw [genLoopO] at h
    by_cases hc : jsToInt32 (jsTruncDiv r alphabet.length) = 0
    · rw [if_pos hc] at h ⊢
      exact Option.some.inj h
    · rw [if_neg hc] at h ⊢
      exact ih _ _ _ h

/-- The `n`-th string yielded by `KeyGenerator.create` (`n` starting at 0):
the generator yields with `remainder = index++`, so the `n`-th yield runs the
digit loop on `n`. -/
def genKey (n : Nat) : List Char := genLoop (n : Int) []

/-! ## The base-62 representation the spec describes -/

/-- Digit `d` of the claim's base-62 representation. -/
def digitChar62 (d : Nat) : Char := specAlphabet.getD d '0'

/-- The claim's base-62 positional representation of `n` over `specAlphabet`,
most-significant digit first, no leading zero beyond the minimum
(value 0 is the single first alphabet character). -/
def specBase62 (n : Nat) : List Char :=
  if n = 0 then ['0'] else (Nat.digits 62 n).reverse.map digitChar62

/-- Fuel-indexed evaluator for `Nat.digits 62`, used to compute digit lists
of concrete numbers in the kernel. -/
def digitsO : Nat → Nat → Option (List Nat)
  | 0, _ => none
  | _ + 1, 0 => some []
  | fuel + 1, n + 1 =>
    (digitsO fuel ((n + 1) / 62)).map (fun l => ((n + 1) % 62) :: l)

theorem digitsO_sound :
    ∀ (fuel n : Nat) (l : List Nat), digitsO fuel n = some l →
      Nat.digits 62 n = l := by
  intro fuel
  induction fuel with
  | zero => intro n l h; simp [digitsO] at h
  | succ f ih =>
    intro n l h
    cases n with
    | zero =>
      rw [digitsO] at h
      simp only [Option.some.injEq] at h
      rw [Nat.digits_zero, h]
    | succ n =>
      rw [digitsO] at h
      cases he : digitsO f ((n + 1) / 62) with
      | none => rw [he] at h; simp at h
      | some l' =>
        rw [he] at h
        simp only [Option.map_some', Option.some.injEq] at h
        rw [Nat.digits_def' (by norm_num : (1:Nat) < 62) (Nat.succ_pos n),
          ih _ _ he, h]

theorem alphabetAt_small :
    ∀ d : Nat, d < 62 → alphabetAt (d : Int) = some (digitChar62 d) := by
  decide

theorem specBase62_step {m : Nat} (h : 62 ≤ m) :
    specBase62 m = specBase62 (m / 62) ++ [digitChar62 (m % 62)] := by
  have h0 : m ≠ 0 := by omega
  have h1 : m / 62 ≠ 0 := by omega
  rw [specBase62, specBase62, if_neg h0, if_neg h1,
    Nat.digits_def' (by norm_num : (1:Nat) < 62) (by omega : 0 < m)]
  simp

theorem specBase62_small {m : Nat} (h : m < 62) :
    specBase62 m = [digitChar62 m] := by
  by_cases h0 : m = 0
  · subst h0
    rw [specBase62, if_pos rfl]
    rfl
  · rw [specBase62, if_neg h0, Nat.digits_of_lt 62 m h0 h]
    rfl

/-- Characterization of the digit loop on inputs where the `| 0` coercion
is the identity. -/
theorem genLoop_ofNat :
    ∀ (m : Nat), m < 62 * 2147483648 → ∀ acc,
      genLoop (m : Int) acc = specBase62 m ++ acc := by
  intro m
  induction m using Nat.strongRecOn with
  | _ m ih =>
    intro hm acc
    rw [genLoop.eq_1, alphabet_length, jsTruncDiv_ofNat, jsRem_ofNat,
      alphabetAt_small _ (Nat.mod_lt _ (by omega))]
    have hq : m / 62 < 2147483648 := by omega
    have h32 : jsToInt32 ((m / 62 : Nat) : Int) = ((m / 62 : Nat) : Int) := by
      apply jsToInt32_eq_self
      · exact le_trans (by norm_num) (Int.ofNat_nonneg _)
      · exact_mod_cast hq
    rw [h32]
    by_cases hs : m < 62
    · have hz : ((m / 62 : Nat) : Int) = 0 := by
        have : m / 62 = 0 := Nat.div_eq_of_lt hs
        simp [this]
      rw [if_pos hz, specBase62_small hs, Nat.mod_eq_of_lt hs]
      rfl
    · have hnz : ¬ ((m / 62 : Nat) : Int) = 0 := by
        have hd0 : m / 62 ≠ 0 := by omega
        exact fun hc => hd0 (by exact_mod_cast hc)
      rw [if_neg hnz]
      have ih' := ih (m / 62) (by omega) (by omega)
        (jsStr (some (digitChar62 (m % 62))) ++ acc)
      rw [ih', specBase62_step (by omega : 62 ≤ m)]
      simp [jsStr]

theorem digitChar62_injOn :
    ∀ x, x < 62 → ∀ y, y < 62 → digitChar62 x = digitChar62 y → x = y := by
  decide

theorem map_digitChar62_inj :
    ∀ (l1 l2 : List Nat), (∀ x ∈ l1, x < 62) → (∀ x ∈ l2, x < 62) →
      l1.map digitChar62 = l2.map digitChar62 → l1 = l2 := by
  intro l1
  induction l1 with
  | nil => intro l2 _ _ h; cases l2 <;> simp_all
  | cons x t ihl =>
    intro l2 h1 h2 h
    cases l2 with
    | nil => simp at h
    | cons y t2 =>
      simp only [List.map_cons, List.cons.injEq] at h
      have hx : x = y :=
        digitChar62_injOn x (h1 x (by simp)) y (h2 y (by simp)) h.1
      have ht : t = t2 := by
        apply ihl t2 (fun z hz => h1 z (by simp [hz]))
          (fun z hz => h2 z (by simp [hz])) h.2
      rw [hx, ht]

theorem specBase62_inj :
    ∀ a b : Nat, specBase62 a = specBase62 b → a = b := by
  have hrevmap : ∀ n : Nat, n ≠ 0 →
      specBase62 n = (Nat.digits 62 n).reverse.map digitChar62 := by
    intro n hn; rw [specBase62, if_neg hn]
  have hbound : ∀ n : Nat, ∀ x ∈ (Nat.digits 62 n).reverse, x < 62 := by
    intro n x hx
    exact Nat.digits_lt_base (by norm_num) (List.mem_reverse.mp hx)
  have key : ∀ a b : Nat, a ≠ 0 → b ≠ 0 → specBase62 a = specBase62 b → a = b := by
    intro a b ha hb h
    rw [hrevmap a ha, hrevmap b hb] at h
    have := map_digitChar62_inj _ _ (hbound a) (hbound b) h
    have hd : Nat.digits 62 a = Nat.digits 62 b :=
      List.reverse_injective this
    have := congrArg (Nat.ofDigits 62) hd
    rwa [Nat.ofDigits_digits, Nat.ofDigits_digits] at this
  have zcase : ∀ b : Nat, b ≠ 0 → specBase62 0 ≠ specBase62 b := by
    intro b hb h
    rw [specBase62, if_pos rfl, hrevmap b hb] at h
    have h0 : ([0] : List Nat).map digitChar62 = ['0'] := by decide
    rw [← h0] at h
    have := map_digitChar62_inj _ _ (by decide) (hbound b) h
    have hd : Nat.digits 62 b = [0] := by
      have := congrArg List.reverse this
      simpa using this.symm
    have := congrArg (Nat.ofDigits 62) hd
    rw [Nat.ofDigits_digits] at this
    simp [Nat.ofDigits] at this
    exact hb this
  intro a b h
  by_cases ha : a = 0
  · by_cases hb : b = 0
    · rw [ha, hb]
    · subst ha; exact absurd h (zcase b hb)
  · by_cases hb : b = 0
    · subst hb; exact absurd h.symm (zcase a ha)
    · exact key a b ha hb h

/-- C1 as stated is false: at `n = 62 * 2^31` the `| 0` coercion in
`key-generator.js` wraps (`ToInt32`), the remainder goes negative, and the
yielded string degenerates (out-of-range alphabet reads concatenate
`"undefined"`), so the output is not the base-62 representation of `n`. -/
theorem keyGenerator_claim_counterexample :
    genKey 133143986176 ≠ specBase62 133143986176 := by
  have e1 : genLoopO 16 ((133143986176 : Nat) : Int) [] =
      some "undefinedundefinedundefinedundefinedundefinedundefined0".data := by
    decide
  have hg : genKey 133143986176 =
      "undefinedundefinedundefinedundefinedundefinedundefined0".data :=
    genLoopO_sound _ _ _ _ e1
  have hd : Nat.digits 62 133143986176 = [0, 2, 37, 38, 20, 21, 2] :=
    digitsO_sound 16 _ _ (by decide)
  have hs : specBase62 133143986176 = "2LKcb20".data := by
    rw [specBase62, if_neg (by norm_num), hd]
    decide
  rw [hg, hs]
  decide

/-- C1 (amended): for every `n < 62 * 2^31` (the range where the 32-bit
`| 0` coercion in the digit loop is exact), the `n`-th string yielded by
`KeyGenerator.create` is the base-62 positional representation of `n` over
`'0'-'9','A'-'Z','a'-'z'`, most-significant digit first with no leading zero
beyond the minimum, and the outputs are pairwise distinct on that range. -/
theorem keyGenerator_base62 (n : Nat) (hn : n < 62 * 2147483648) :
    genKey n = specBase62 n ∧
      ∀ m : Nat, m < 62 * 2147483648 → genKey m = genKey n → m = n := by
  constructor
  · have := genLoop_ofNat n hn []
    simpa [genKey] using this
  · intro m hm he
    apply specBase62_inj
    have h1 := genLoop_ofNat m hm []
    have h2 := genLoop_ofNat n hn []
    simp only [List.append_nil] at h1 h2
    rw [← h1, ← h2]
    exact he

theorem keyGenerator_base62_witness :
    genKey 1000000 = specBase62 1000000 :=
  (keyGenerator_base62 1000000 (by decide)).1

/-! ## Literal global string replacement (JS `String.replace` with an escaped
pattern and the `g` flag) -/

/-- Fuel-indexed scanner: replace every leftmost non-overlapping occurrence of
`pat` in `s` by `rep`. The fuel decreases by one per step while at least one
input character is consumed per step, so `s.length + 1` fuel always suffices.
An empty pattern inserts `rep` at every position, as JS does for an empty
global regex. -/
def replaceAllF (pat rep : List Char) : Nat → List Char → List Char
  | 0, s => s
  | fuel + 1, s =>
    match s with
    | [] => if pat = [] then rep else []
    | c :: rest =>
      if pat ≠ [] ∧ pat.isPrefixOf (c :: rest) then
        rep ++ replaceAllF pat rep fuel ((c :: rest).drop pat.length)
      else if pat = [] then rep ++ c :: replaceAllF pat rep fuel rest
      else c :: replaceAllF pat rep fuel rest

def replaceAll (pat rep s : List Char) : List Char :=
  replaceAllF pat rep (s.length + 1) s

theorem isPrefixOf_length_le {pat s : List Char} (h : pat.isPrefixOf s) :
    pat.length ≤ s.length := by
  have := List.isPrefixOf_iff_prefix.mp h
  exact this.length_le

theorem replaceAllF_irrel :
    ∀ (n : Nat) (pat rep : List Char) (f1 f2 : Nat) (s : List Char),
      s.length ≤ n → s.length < f1 → s.length < f2 →
      replaceAllF pat rep f1 s = replaceAllF pat rep f2 s := by
  intro n
  induction n with
  | zero =>
    intro pat rep f1 f2 s hn h1 h2
    have : s = [] := by
      cases s with
      | nil => rfl
      | cons a t => simp at hn
    subst this
    obtain ⟨g1, rfl⟩ : ∃ g1, f1 = g1 + 1 := ⟨f1 - 1, by omega⟩
    obtain ⟨g2, rfl⟩ : ∃ g2, f2 = g2 + 1 := ⟨f2 - 1, by omega⟩
    rfl
  | succ n ih =>
    intro pat rep f1 f2 s hn h1 h2
    cases s with
    | nil =>
      obtain ⟨g1, rfl⟩ : ∃ g1, f1 = g1 + 1 := ⟨f1 - 1, by omega⟩
      obtain ⟨g2, rfl⟩ : ∃ g2, f2 = g2 + 1 := ⟨f2 - 1, by omega⟩
      rfl
    | cons c rest =>
      obtain ⟨g1, rfl⟩ : ∃ g1, f1 = g1 + 1 := ⟨f1 - 1, by omega⟩
      obtain ⟨g2, rfl⟩ : ∃ g2, f2 = g2 + 1 := ⟨f2 - 1, by omega⟩
      rw [replaceAllF, replaceAllF]
      by_cases hp : pat ≠ [] ∧ pat.isPrefixOf (c :: rest)
      · rw [if_pos hp, if_pos hp]
        have hlen : ((c :: rest).drop pat.length).length ≤ n := by
          have hple : 1 ≤ pat.length := by
            cases pat with
            | nil => exact absurd rfl hp.1
            | cons a t => simp
          simp only [List.length_drop, List.length_cons] at *
          omega
        have hple : 1 ≤ pat.length := by
          cases pat with
          | nil => exact absurd rfl hp.1
          | cons a t => simp
        have hd : ((c :: rest).drop pat.length).length < g1 := by
          simp only [List.length_drop, List.length_cons] at *
          omega
        have hd2 : ((c :: rest).drop pat.length).length < g2 := by
          simp only [List.length_drop, List.length_cons] at *
          omega
        rw [ih pat rep g1 g2 _ hlen hd hd2]
      · rw [if_neg hp, if_neg hp]
        by_cases he : pat = []
        · rw [if_pos he, if_pos he]
          have hlen : rest.length ≤ n := by
            simp only [List.length_cons] at hn
            omega
          rw [ih pat rep g1 g2 rest hlen (by simp only [List.length_cons] at h1; omega)
            (by simp only [List.length_cons] at h2; omega)]
        · rw [if_neg he, if_neg he]
          have hlen : rest.length ≤ n := by
            simp only [List.length_cons] at hn
            omega
          rw [ih pat rep g1 g2 rest hlen (by simp only [List.length_cons] at h1; omega)
            (by simp only [List.length_cons] at h2; omega)]

theorem replaceAll_nil (pat rep : List Char) :
    replaceAll pat rep [] = if pat = [] then rep else [] := rfl

theorem replaceAll_pos {pat : List Char} (rep : List Char) {c : Char} {s : List Char}
    (h1 : pat ≠ []) (h2 : pat.isPrefixOf (c :: s)) :
    replaceAll pat rep (c :: s) =
      rep ++ replaceAll pat rep ((c :: s).drop pat.length) := by
  rw [replaceAll, replaceAll, replaceAllF, if_pos ⟨h1, h2⟩]
  congr 1
  apply replaceAllF_irrel ((c :: s).drop pat.length).length pat rep _ _ _ le_rfl
  · have hple : 1 ≤ pat.length := by
      cases pat with
      | nil => exact absurd rfl h1
      | cons a t => simp
    simp only [List.length_drop, List.length_cons]
    omega
  · omega

theorem replaceAll_neg {pat : List Char} (rep : List Char) {c : Char} {s : List Char}
    (h1 : pat ≠ []) (h2 : ¬ pat.isPrefixOf (c :: s)) :
    replaceAll pat rep (c :: s) = c :: replaceAll pat rep s := by
  rw [replaceAll, replaceAll, replaceAllF, if_neg (by simp [h2]), if_neg h1]
  rw [List.length_cons]

/-! ## The extraction/mangling engine (`ExtractTranslationRegexPlugin.prototype.apply`) -/

/-- One record produced by `regex.exec`: `full` is `match[0]`, `groups[i-1]`
is `match[i]` (a capture group that did not participate is `none`). -/
structure MatchRec where
  full : List Char
  groups : List (Option (List Char))
deriving DecidableEq

/-- `match[i]` with JS out-of-bounds reads yielding `undefined`. -/
def matchAt (m : MatchRec) (i : Nat) : Option (List Char) :=
  if i = 0 then some m.full else m.groups.getD (i - 1) none

/-- JS truthiness of `match[i]`: `undefined` and the empty string are falsy. -/
def jsTruthy : Option (List Char) → Bool
  | none => false
  | some s => !s.isEmpty

/-- `getKeyIndexFromMatch`: the first configured group index whose capture is
truthy; `none` models the `-1` return. -/
def getKeyIndexFromMatch (m : MatchRec) : List Nat → Option Nat
  | [] => none
  | i :: rest =>
    if jsTruthy (matchAt m i) then some i else getKeyIndexFromMatch m rest

def assocFind {β : Type} : List (List Char × β) → List Char → Option β
  | [], _ => none
  | (k, v) :: rest, a => if k = a then some v else assocFind rest a

/-- The run state owned by the plugin instance: `this.keys` (group name →
original-key → assigned-key, in property insertion order) and the generator
counter (`index` of the generator closure). -/
structure PluginState where
  keys : List (List Char × List (List Char × List Char))
  counter : Nat
deriving DecidableEq

def initialState : PluginState := ⟨[], 0⟩

/-- `if (!this.keys[chunk.name]) { this.keys[chunk.name] = {}; }` -/
def ensureGroup (st : PluginState) (chunk : List Char) : PluginState :=
  match assocFind st.keys chunk with
  | some _ => st
  | none => ⟨st.keys ++ [(chunk, [])], st.counter⟩

/-- Reading the own entry `this.keys[chunk.name][value]` of a group's
table. -/
def lookupGroup (st : PluginState) (chunk value : List Char) : Option (List Char) :=
  match assocFind st.keys chunk with
  | some t => assocFind t value
  | none => none

/-- The property names of `Object.prototype` (ECMA-262, Annex B included).
A group table is a plain object literal (`this.keys[chunk.name] = {}`), so
the `in` operator also answers `true` for these names through the prototype
chain. -/
def protoProps : List (List Char) :=
  ["constructor".data, "hasOwnProperty".data, "isPrototypeOf".data,
    "propertyIsEnumerable".data, "toLocaleString".data, "toString".data,
    "valueOf".data, "__proto__".data, "__defineGetter__".data,
    "__defineSetter__".data, "__lookupGetter__".data, "__lookupSetter__".data]

/-- `value in this.keys[chunk.name]`: the JS `in` operator on the plain-object
group table — true for an own entry and also for every `Object.prototype`
property name. -/
def jsInGroup (st : PluginState) (chunk value : List Char) : Bool :=
  (lookupGroup st chunk value).isSome || decide (value ∈ protoProps)

/-- `this.keys[chunk.name][value] = key` for a fresh property `value`. -/
def insertGroup (st : PluginState) (chunk value key : List Char) : PluginState :=
  ⟨st.keys.map (fun p => if p.1 = chunk then (p.1, p.2 ++ [(value, key)]) else p),
    st.counter⟩

/-- `this.generator.next()` advancing the generator counter. -/
def advanceCounter (st : PluginState) : PluginState := ⟨st.keys, st.counter + 1⟩

/-- `'$' + i`, the back-reference token replaced for group `i`. -/
def dollarToken (i : Nat) : List Char := '$' :: (Nat.repr i).data

/-- The per-group value the loop at lines 116-130 stores into `tmpMatch[i]`:
`undefined` captures become empty; a key-eligible group becomes the key if it
is the winning group and empty otherwise; other groups keep their capture. -/
def resolvedGroupValue (groupIndex : List Nat) (keyIndex : Nat) (key : List Char)
    (i : Nat) (v : Option (List Char)) : List Char :=
  match v with
  | none => []
  | some s => if i ∈ groupIndex then (if i = keyIndex then key else []) else s

/-- The replacement built from `this.functionReplace` by the loop at lines
116-130: for `i = 1 .. match.length - 1` in increasing order, globally replace
the token `$i` by the resolved value of group `i`. -/
def buildReplacement (functionReplace : List Char) (groupIndex : List Nat)
    (keyIndex : Nat) (key : List Char) (groups : List (Option (List Char))) :
    List Char :=
  (List.range groups.length).foldl
    (fun acc j =>
      replaceAll (dollarToken (j + 1))
        (resolvedGroupValue groupIndex keyIndex key (j + 1) (groups.getD j none))
        acc)
    functionReplace

/-- The engine configuration fields used inside the match loop. -/
structure EngineCfg where
  mangle : Bool
  functionReplace : List Char
  groupIndex : List Nat

/-- Lines 90-135: processing of one match. `none` models the `keyIndex === -1`
error path (an error is pushed and the pass returns). Otherwise the state is
updated through the key table and, when mangling, every literal occurrence of
`match[0]` in the source is replaced by the built replacement. -/
def processMatch (cfg : EngineCfg) (chunk : List Char) (st : PluginState)
    (source : List Char) (m : MatchRec) : Option (PluginState × List Char) :=
  match getKeyIndexFromMatch m cfg.groupIndex with
  | none => none
  | some keyIndex =>
    let value := (matchAt m keyIndex).getD []
    let st0 := ensureGroup st chunk
    let ks :=
      if jsInGroup st0 chunk value then (value, st0)
      else
        if cfg.mangle then
          (genKey st0.counter,
            advanceCounter (insertGroup st0 chunk value (genKey st0.counter)))
        else (value, insertGroup st0 chunk value value)
    if cfg.mangle then
      some (ks.2,
        replaceAll m.full
          (buildReplacement cfg.functionReplace cfg.groupIndex keyIndex ks.1
            m.groups)
          source)
    else some (ks.2, source)

/-- The error message pushed to `compilation.errors` on the `-1` path. -/
def extractionErrorMsg : List Char :=
  "ExtractTranslationRegexPlugin: The provided `functionPattern` regular expression do not contain capture block. Please check your webpack.config.js file.".data

/-- The `while ((match = regex.exec(source)) !== null)` loop over the match
records of one module. On the error path the handler pushes one error and
returns, so the remaining matches are not processed; the third component
collects the errors pushed by this unit. -/
def runMatches (cfg : EngineCfg) (chunk : List Char) :
    PluginState → List Char → List MatchRec →
      PluginState × List Char × List (List Char)
  | st, source, [] => (st, source, [])
  | st, source, m :: rest =>
    match processMatch cfg chunk st source m with
    | none => (st, source, [extractionErrorMsg])
    | some (st', source') => runMatches cfg chunk st' source' rest

/-- One module: the match loop followed by the write-back
`module._source._value = source` (skipped when the handler returned early on
the error path). -/
def runUnit (cfg : EngineCfg) (chunk : List Char) (st : PluginState)
    (source : List Char) (ms : List MatchRec) :
    PluginState × List Char × List (List Char) :=
  match runMatches cfg chunk st source ms with
  | (st', source', []) => (st', source', [])
  | (st', _, errs) => (st', source, errs)

/-- The whole `optimize-chunks` pass over the (chunk, source, matches) units:
an error aborts the remaining units (`return false` exits the handler). -/
def runAll (cfg : EngineCfg) :
    PluginState → List (List Char × List Char × List MatchRec) →
      PluginState × List (List Char)
  | st, [] => (st, [])
  | st, (chunk, source, ms) :: rest =>
    match runUnit cfg chunk st source ms with
    | (st', _, []) => runAll cfg st' rest
    | (st', _, errs) => (st', errs)

/-- JS property assignment `obj[k] = v`: an existing key keeps its position
and gets the new value, a new key is appended. -/
def objSet {β : Type} : List (List Char × β) → List Char → β → List (List Char × β)
  | [], k, v => [(k, v)]
  | (k', v') :: rest, k, v =>
    if k' = k then (k', v) :: rest else (k', v') :: objSet rest k v

/-- `flipObject`: `newObj[obj[prop]] = prop` over the properties in order. -/
def flipObject (t : List (List Char × List Char)) : List (List Char × List Char) :=
  t.foldl (fun acc p => objSet acc p.2 p.1) []

/-- Lines 144-146: each group's table is flipped into assigned → original. -/
def finalize (st : PluginState) :
    List (List Char × List (List Char × List Char)) :=
  st.keys.map (fun p => (p.1, flipObject p.2))

/-! ## Branch characterizations of `processMatch` -/

theorem processMatch_none_iff (cfg : EngineCfg) (chunk : List Char)
    (st : PluginState) (source : List Char) (m : MatchRec) :
    processMatch cfg chunk st source m = none ↔
      getKeyIndexFromMatch m cfg.groupIndex = none := by
  unfold processMatch
  cases h : getKeyIndexFromMatch m cfg.groupIndex
  · simp
  · simp only [iff_false, Option.some.injEq, reduceCtorEq]
    cases cfg.mangle <;> simp

theorem jsInGroup_eq_false {st : PluginState} {chunk value : List Char}
    (h : jsInGroup st chunk value = false) :
    lookupGroup st chunk value = none ∧ value ∉ protoProps := by
  rw [jsInGroup] at h
  constructor
  · cases hl : lookupGroup st chunk value with
    | none => rfl
    | some a =>
      rw [hl] at h
      simp at h
  · intro hm
    rw [decide_eq_true hm] at h
    simp at h

/-- The `in` check answers `true` — for an own entry of the group's table
(a key seen before) or for an `Object.prototype` property name — so the
branch that would assign a key is skipped: `key` stays the original text and
nothing is inserted. -/
theorem processMatch_repeat (cfg : EngineCfg) (chunk : List Char)
    (st : PluginState) (source : List Char) (m : MatchRec) (keyIndex : Nat)
    (hk : getKeyIndexFromMatch m cfg.groupIndex = some keyIndex)
    (hj : jsInGroup (ensureGroup st chunk) chunk
      ((matchAt m keyIndex).getD []) = true) :
    processMatch cfg chunk st source m =
      some (ensureGroup st chunk,
        if cfg.mangle then
          replaceAll m.full
            (buildReplacement cfg.functionReplace cfg.groupIndex keyIndex
              ((matchAt m keyIndex).getD []) m.groups) source
        else source) := by
  simp only [processMatch, hk, hj]
  cases cfg.mangle <;> simp

theorem processMatch_fresh (cfg : EngineCfg) (chunk : List Char)
    (st : PluginState) (source : List Char) (m : MatchRec) (keyIndex : Nat)
    (hk : getKeyIndexFromMatch m cfg.groupIndex = some keyIndex)
    (hl : jsInGroup (ensureGroup st chunk) chunk
      ((matchAt m keyIndex).getD []) = false) :
    processMatch cfg chunk st source m =
      (if cfg.mangle then
        some (advanceCounter
            (insertGroup (ensureGroup st chunk) chunk
              ((matchAt m keyIndex).getD [])
              (genKey (ensureGroup st chunk).counter)),
          replaceAll m.full
            (buildReplacement cfg.functionReplace cfg.groupIndex keyIndex
              (genKey (ensureGroup st chunk).counter) m.groups) source)
      else
        some (insertGroup (ensureGroup st chunk) chunk
            ((matchAt m keyIndex).getD []) ((matchAt m keyIndex).getD []),
          source)) := by
  simp only [processMatch, hk, hl]
  cases cfg.mangle <;> simp

/-! ## C5: the no-capture error path -/

/-- C5: if a match occurs but no configured group index captured a key, the
handler pushes exactly one error to the host's error channel and returns
(the remaining matches of the unit are not processed, the state and the text
are left as they were, and the original text is what remains written back).
The function returns normally, modelling that the process is not halted. -/
theorem extraction_error_aborts (cfg : EngineCfg) (chunk : List Char)
    (st : PluginState) (source : List Char) (m : MatchRec)
    (rest : List MatchRec)
    (h : getKeyIndexFromMatch m cfg.groupIndex = none) :
    runMatches cfg chunk st source (m :: rest) =
        (st, source, [extractionErrorMsg]) ∧
      runUnit cfg chunk st source (m :: rest) =
        (st, source, [extractionErrorMsg]) := by
  have hp : processMatch cfg chunk st source m = none :=
    (processMatch_none_iff cfg chunk st source m).mpr h
  have h1 : runMatches cfg chunk st source (m :: rest) =
      (st, source, [extractionErrorMsg]) := by
    rw [runMatches, hp]
  exact ⟨h1, by rw [runUnit, h1]⟩

theorem extraction_error_aborts_witness :
    runMatches ⟨false, [], [1]⟩ [] initialState ['s']
        (MatchRec.mk ['a'] [none] :: [MatchRec.mk ['b'] [some ['k']]]) =
      (initialState, ['s'], [extractionErrorMsg]) :=
  (extraction_error_aborts ⟨false, [], [1]⟩ [] initialState ['s']
    (MatchRec.mk ['a'] [none]) [MatchRec.mk ['b'] [some ['k']]] (by decide)).1

/-! ## C9: non-mangling mode never rewrites the text -/

theorem processMatch_nonmangle_source (fr : List Char) (gi : List Nat)
    (chunk : List Char) (st : PluginState) (source : List Char) (m : MatchRec)
    (st' : PluginState) (source' : List Char)
    (h : processMatch ⟨false, fr, gi⟩ chunk st source m = some (st', source')) :
    source' = source := by
  simp only [processMatch] at h
  cases hk : getKeyIndexFromMatch m gi with
  | none => rw [hk] at h; simp at h
  | some keyIndex =>
    rw [hk] at h
    simp only [Bool.false_eq_true, if_false] at h
    exact (Prod.mk.injEq _ _ _ _ ▸ Option.some.inj h).2.symm

theorem runMatches_nonmangle_source (fr : List Char) (gi : List Nat)
    (chunk : List Char) :
    ∀ (ms : List MatchRec) (st : PluginState) (source : List Char),
      (runMatches ⟨false, fr, gi⟩ chunk st source ms).2.1 = source := by
  intro ms
  induction ms with
  | nil => intro st source; rfl
  | cons m rest ih =>
    intro st source
    rw [runMatches]
    cases hp : processMatch ⟨false, fr, gi⟩ chunk st source m with
    | none => rfl
    | some p =>
      obtain ⟨st', source'⟩ := p
      have hs : source' = source :=
        processMatch_nonmangle_source fr gi chunk st source m st' source' hp
      simp only []
      rw [ih st' source', hs]

/-- C9: in non-mangling mode the engine never modifies a unit's source text:
both the text after the match loop and the text written back to the module
are character-for-character the input text, for every input and every
sequence of matches. -/
theorem nonmangle_source_unchanged (fr : List Char) (gi : List Nat)
    (chunk : List Char) (st : PluginState) (source : List Char)
    (ms : List MatchRec) :
    (runMatches ⟨false, fr, gi⟩ chunk st source ms).2.1 = source ∧
      (runUnit ⟨false, fr, gi⟩ chunk st source ms).2.1 = source := by
  refine ⟨runMatches_nonmangle_source fr gi chunk ms st source, ?_⟩
  rw [runUnit]
  have h := runMatches_nonmangle_source fr gi chunk ms st source
  rcases hr : runMatches ⟨false, fr, gi⟩ chunk st source ms with ⟨st', source', errs⟩
  rw [hr] at h
  simp only [] at h
  cases errs with
  | nil => simpa using h
  | cons e es => simp

/-! ## Association-list lemmas for the key tables -/

theorem assocFind_eq_none_iff {β : Type} :
    ∀ (l : List (List Char × β)) (k : List Char),
      assocFind l k = none ↔ k ∉ l.map Prod.fst := by
  intro l
  induction l with
  | nil => intro k; simp [assocFind]
  | cons p rest ih =>
    intro k
    obtain ⟨pk, pv⟩ := p
    by_cases h : pk = k
    · subst h
      show (if pk = pk then some pv else assocFind rest pk) = none ↔ _
      rw [if_pos rfl]
      constructor
      · intro hn; exact Option.noConfusion hn
      · intro hn
        exact absurd (show pk ∈ List.map Prod.fst ((pk, pv) :: rest) from
          by rw [List.map_cons]; exact List.mem_cons_self _ _) hn
    · simp only [assocFind, if_neg h, ih k, List.map_cons, List.mem_cons]
      constructor
      · intro hn hc
        rcases hc with hc | hc
        · exact h hc.symm
        · exact hn hc
      · intro hn
        exact fun hc => hn (Or.inr hc)

theorem assocFind_append_none {β : Type} {l1 : List (List Char × β)}
    (l2 : List (List Char × β)) {k : List Char} (h : assocFind l1 k = none) :
    assocFind (l1 ++ l2) k = assocFind l2 k := by
  induction l1 with
  | nil => simp
  | cons p rest ih =>
    obtain ⟨pk, pv⟩ := p
    rw [assocFind] at h
    by_cases hk : pk = k
    · rw [if_pos hk] at h; exact absurd h (by simp)
    · rw [if_neg hk] at h
      rw [List.cons_append, assocFind, if_neg hk]
      exact ih h

theorem assocFind_append_some {β : Type} {l1 : List (List Char × β)}
    (l2 : List (List Char × β)) {k : List Char} {v : β}
    (h : assocFind l1 k = some v) : assocFind (l1 ++ l2) k = some v := by
  induction l1 with
  | nil => simp [assocFind] at h
  | cons p rest ih =>
    obtain ⟨pk, pv⟩ := p
    rw [assocFind] at h
    rw [List.cons_append, assocFind]
    by_cases hk : pk = k
    · rw [if_pos hk] at h ⊢; exact h
    · rw [if_neg hk] at h ⊢; exact ih h

theorem assocFind_of_mem_nodup {β : Type} :
    ∀ (l : List (List Char × β)), (l.map Prod.fst).Nodup →
      ∀ p ∈ l, assocFind l p.1 = some p.2 := by
  intro l
  induction l with
  | nil => intro _ p hp; simp at hp
  | cons q rest ih =>
    intro hnd p hp
    obtain ⟨qk, qv⟩ := q
    rw [List.map_cons, List.nodup_cons] at hnd
    rcases List.mem_cons.mp hp with hp1 | hp1
    · subst hp1
      rw [assocFind]
      simp
    · rw [assocFind]
      have hne : qk ≠ p.1 := by
        intro he
        exact hnd.1 (he ▸ List.mem_map.mpr ⟨p, hp1, rfl⟩)
      rw [if_neg hne]
      exact ih hnd.2 p hp1

theorem assocFind_insertGroup {β : Type} (f : β → β) (c : List Char) :
    ∀ (l : List (List Char × β)) (a : List Char),
      assocFind (l.map (fun p => if p.1 = c then (p.1, f p.2) else p)) a =
        if a = c then (assocFind l a).map f else assocFind l a := by
  intro l
  induction l with
  | nil => intro a; by_cases h : a = c <;> simp [assocFind, h]
  | cons p rest ih =>
    intro a
    obtain ⟨pk, pv⟩ := p
    rw [List.map_cons]
    show assocFind ((if pk = c then (pk, f pv) else (pk, pv)) ::
        rest.map (fun p => if p.1 = c then (p.1, f p.2) else p)) a = _
    by_cases hpc : pk = c
    · rw [if_pos hpc, assocFind]
      by_cases hpa : pk = a
      · have hac : a = c := hpa ▸ hpc
        rw [if_pos hpa, if_pos hac, assocFind, if_pos hpa]
        rfl
      · rw [if_neg hpa, ih a]
        by_cases hac : a = c
        · rw [if_pos hac, if_pos hac, assocFind, if_neg hpa]
        · rw [if_neg hac, if_neg hac, assocFind, if_neg hpa]
    · rw [if_neg hpc, assocFind]
      by_cases hpa : pk = a
      · have hac : ¬ a = c := fun h => hpc (hpa.trans h)
        rw [if_pos hpa, if_neg hac, assocFind, if_pos hpa]
      · rw [if_neg hpa, ih a]
        by_cases hac : a = c
        · rw [if_pos hac, if_pos hac, assocFind, if_neg hpa]
        · rw [if_neg hac, if_neg hac, assocFind, if_neg hpa]

/-! ## Lemmas about the state operations -/

theorem ensureGroup_counter (st : PluginState) (c : List Char) :
    (ensureGroup st c).counter = st.counter := by
  rw [ensureGroup]
  cases assocFind st.keys c <;> rfl

theorem ensureGroup_found (st : PluginState) (c : List Char) :
    ∃ t, assocFind (ensureGroup st c).keys c = some t := by
  rw [ensureGroup]
  cases h : assocFind st.keys c with
  | some t => exact ⟨t, h⟩
  | none =>
    refine ⟨[], ?_⟩
    show assocFind (st.keys ++ [(c, [])]) c = some []
    rw [assocFind_append_none _ h, assocFind, if_pos rfl]

theorem ensureGroup_of_lookup {st : PluginState} {c v a : List Char}
    (h : lookupGroup st c v = some a) : ensureGroup st c = st := by
  rw [lookupGroup] at h
  rw [ensureGroup]
  cases hf : assocFind st.keys c with
  | some t => rfl
  | none => rw [hf] at h; simp at h

theorem lookupGroup_advanceCounter (st : PluginState) (c v : List Char) :
    lookupGroup (advanceCounter st) c v = lookupGroup st c v := rfl

theorem lookupGroup_insert_self {st : PluginState} {c v : List Char}
    (k : List Char) {t : List (List Char × List Char)}
    (hg : assocFind st.keys c = some t) (hv : assocFind t v = none) :
    lookupGroup (insertGroup st c v k) c v = some k := by
  rw [lookupGroup, insertGroup]
  show (match assocFind (st.keys.map fun p =>
      if p.1 = c then (p.1, p.2 ++ [(v, k)]) else p) c with
    | some t => assocFind t v
    | none => none) = some k
  rw [assocFind_insertGroup (fun t => t ++ [(v, k)]) c st.keys c, if_pos rfl, hg]
  show assocFind (t ++ [(v, k)]) v = some k
  rw [assocFind_append_none _ hv, assocFind, if_pos rfl]

theorem lookupGroup_insert_other {st : PluginState} {c v w : List Char}
    (k : List Char) {t : List (List Char × List Char)}
    (hg : assocFind st.keys c = some t) (hw : w ≠ v) :
    lookupGroup (insertGroup st c v k) c w = lookupGroup st c w := by
  rw [lookupGroup, lookupGroup, insertGroup]
  show (match assocFind (st.keys.map fun p =>
      if p.1 = c then (p.1, p.2 ++ [(v, k)]) else p) c with
    | some t => assocFind t w
    | none => none) = _
  rw [assocFind_insertGroup (fun t => t ++ [(v, k)]) c st.keys c, if_pos rfl, hg]
  show assocFind (t ++ [(v, k)]) w = assocFind t w
  cases hf : assocFind t w with
  | some x => rw [assocFind_append_some _ hf]
  | none =>
    rw [assocFind_append_none _ hf]
    show (if v = w then some k else assocFind [] w) = none
    rw [if_neg (fun h => hw h.symm)]
    rfl

/-! ## Invariants of the key tables -/

/-- Well-formedness of `this.keys`: group names are distinct and each group's
table assigns each original key at most once. -/
def TablesWF (st : PluginState) : Prop :=
  (st.keys.map Prod.fst).Nodup ∧ ∀ p ∈ st.keys, (p.2.map Prod.fst).Nodup

theorem tablesWF_initial : TablesWF initialState := by
  constructor
  · simp [initialState]
  · intro p hp; simp [initialState] at hp

theorem tablesWF_ensureGroup {st : PluginState} (c : List Char)
    (h : TablesWF st) : TablesWF (ensureGroup st c) := by
  rw [ensureGroup]
  cases hf : assocFind st.keys c with
  | some t => exact h
  | none =>
    have hc : c ∉ st.keys.map Prod.fst := (assocFind_eq_none_iff _ _).mp hf
    constructor
    · show ((st.keys ++ [(c, [])]).map Prod.fst).Nodup
      rw [List.map_append, List.nodup_append]
      refine ⟨h.1, by simp, ?_⟩
      intro a ha hb
      simp only [List.map_cons, List.map_nil, List.mem_singleton] at hb
      subst hb
      exact hc ha
    · intro p hp
      rcases List.mem_append.mp hp with hp | hp
      · exact h.2 p hp
      · simp only [List.mem_singleton] at hp
        rw [hp]
        simp

theorem tablesWF_advanceCounter {st : PluginState} (h : TablesWF st) :
    TablesWF (advanceCounter st) := h

theorem tablesWF_insertGroup {st : PluginState} {c v : List Char}
    (k : List Char) {t : List (List Char × List Char)}
    (hg : assocFind st.keys c = some t) (hv : assocFind t v = none)
    (h : TablesWF st) : TablesWF (insertGroup st c v k) := by
  constructor
  · show ((st.keys.map _).map Prod.fst).Nodup
    rw [List.map_map]
    have he : (Prod.fst ∘ fun p : List Char × List (List Char × List Char) =>
        if p.1 = c then (p.1, p.2 ++ [(v, k)]) else p) = Prod.fst := by
      funext p
      by_cases hpc : p.1 = c <;> simp [hpc]
    rw [he]
    exact h.1
  · intro p hp
    rcases List.mem_map.mp hp with ⟨q, hq, rfl⟩
    by_cases hqc : q.1 = c
    · rw [if_pos hqc]
      have hfind := assocFind_of_mem_nodup st.keys h.1 q hq
      rw [hqc, hg] at hfind
      have hqt : q.2 = t := (Option.some.inj hfind).symm
      show ((q.2 ++ [(v, k)]).map Prod.fst).Nodup
      rw [List.map_append, List.nodup_append]
      refine ⟨h.2 q hq, by simp, ?_⟩
      intro a ha hb
      simp only [List.map_cons, List.map_nil, List.mem_singleton] at hb
      rw [hb, hqt] at ha
      exact absurd ha ((assocFind_eq_none_iff t v).mp hv)
    · rw [if_neg hqc]
      exact h.2 q hq

theorem lookup_none_table {st : PluginState} {c v : List Char}
    {t : List (List Char × List Char)}
    (hg : assocFind st.keys c = some t) (hl : lookupGroup st c v = none) :
    assocFind t v = none := by
  rw [lookupGroup, hg] at hl
  exact hl

theorem tablesWF_processMatch {cfg : EngineCfg} {chunk : List Char}
    {st : PluginState} {source : List Char} {m : MatchRec}
    {st' : PluginState} {source' : List Char} (hw : TablesWF st)
    (h : processMatch cfg chunk st source m = some (st', source')) :
    TablesWF st' := by
  cases hk : getKeyIndexFromMatch m cfg.groupIndex with
  | none =>
    rw [(processMatch_none_iff _ _ _ _ _).mpr hk] at h
    exact absurd h (by simp)
  | some keyIndex =>
    have hw0 : TablesWF (ensureGroup st chunk) := tablesWF_ensureGroup chunk hw
    cases hl : jsInGroup (ensureGroup st chunk) chunk
        ((matchAt m keyIndex).getD []) with
    | true =>
      rw [processMatch_repeat cfg chunk st source m keyIndex hk hl] at h
      have hst : st' = ensureGroup st chunk := by
        have := (Prod.mk.injEq _ _ _ _ ▸ Option.some.inj h).1
        exact this.symm
      rw [hst]
      exact hw0
    | false =>
      obtain ⟨t, hg⟩ := ensureGroup_found st chunk
      have hv := lookup_none_table hg (jsInGroup_eq_false hl).1
      rw [processMatch_fresh cfg chunk st source m keyIndex hk hl] at h
      cases hm : cfg.mangle
      · rw [hm] at h
        simp only [Bool.false_eq_true, if_false, Option.some.injEq,
          Prod.mk.injEq] at h
        rw [← h.1]
        exact tablesWF_insertGroup _ hg hv hw0
      · rw [hm] at h
        simp only [if_true, Option.some.injEq, Prod.mk.injEq] at h
        rw [← h.1]
        exact tablesWF_advanceCounter (tablesWF_insertGroup _ hg hv hw0)

theorem tablesWF_runMatches (cfg : EngineCfg) (chunk : List Char) :
    ∀ (ms : List MatchRec) (st : PluginState) (source : List Char),
      TablesWF st → TablesWF (runMatches cfg chunk st source ms).1 := by
  intro ms
  induction ms with
  | nil => intro st source h; exact h
  | cons m rest ih =>
    intro st source h
    rw [runMatches]
    cases hp : processMatch cfg chunk st source m with
    | none => exact h
    | some p =>
      obtain ⟨st', source'⟩ := p
      exact ih st' source' (tablesWF_processMatch h hp)

theorem runUnit_fst (cfg : EngineCfg) (chunk : List Char) (st : PluginState)
    (source : List Char) (ms : List MatchRec) :
    (runUnit cfg chunk st source ms).1 = (runMatches cfg chunk st source ms).1 := by
  rw [runUnit]
  rcases runMatches cfg chunk st source ms with ⟨st', source', errs⟩
  cases errs <;> rfl

theorem tablesWF_runAll (cfg : EngineCfg) :
    ∀ (units : List (List Char × List Char × List MatchRec)) (st : PluginState),
      TablesWF st → TablesWF (runAll cfg st units).1 := by
  intro units
  induction units with
  | nil => intro st h; exact h
  | cons u rest ih =>
    intro st h
    obtain ⟨chunk, source, ms⟩ := u
    rw [runAll]
    have hu : TablesWF (runUnit cfg chunk st source ms).1 := by
      rw [runUnit_fst]
      exact tablesWF_runMatches cfg chunk ms st source h
    rcases hr : runUnit cfg chunk st source ms with ⟨st', source', errs⟩
    rw [hr] at hu
    cases errs with
    | nil => exact ih st' hu
    | cons e es => exact hu

/-- C3 counterexample: the claim says the first time an original key is
seen it is inserted (to itself, or to the next generator value when
mangling). But the presence check is the JS `in` operator on a plain-object
table, which also answers `true` for `Object.prototype` property names: on
the very first occurrence of the original key `toString` (mangling on,
fresh state) the group's table stays EMPTY and the generator counter stays
`0` — nothing is inserted and the generator is not advanced. -/
theorem keyTable_claim_counterexample :
    (processMatch ⟨true, "$1".data, [1]⟩ ['c'] initialState ['s']
        ⟨"toString".data, [some "toString".data]⟩).map
        (fun p => (p.1, lookupGroup p.1 ['c'] "toString".data)) =
      some (⟨[(['c'], [])], 0⟩, none) := by
  decide

/-- C3 (amended): within one run and one group, the Key Table assigns each
distinct original key exactly once — except that the presence check is the
JS `in` operator on a plain-object table, so original keys named like
`Object.prototype` properties (`toString`, `constructor`, `hasOwnProperty`,
`__proto__`, ...) are misclassified as already present on first sight: they
are never inserted and never advance the generator. Part 1: tables stay
duplicate-free along any run. Part 2: when the `in` check answers true —
the key is an own entry (seen before, reusing its existing assigned key) or
a prototype property name — the state is returned unchanged apart from the
creation of the group's empty table object: no insertion and no generator
advance. Part 3: otherwise the key is inserted exactly once, mapped to
itself in non-mangling mode or to the next generator value in mangling
mode, the counter advances only in mangling mode, and every other original
key of the group is untouched. -/
theorem keyTable_assign_once (cfg : EngineCfg) :
    (∀ units, TablesWF (runAll cfg initialState units).1) ∧
    (∀ (chunk : List Char) (st : PluginState) (source : List Char)
        (m : MatchRec) (keyIndex : Nat),
      getKeyIndexFromMatch m cfg.groupIndex = some keyIndex →
      jsInGroup (ensureGroup st chunk) chunk
        ((matchAt m keyIndex).getD []) = true →
      (processMatch cfg chunk st source m).map Prod.fst =
        some (ensureGroup st chunk)) ∧
    (∀ (chunk : List Char) (st : PluginState) (source : List Char)
        (m : MatchRec) (keyIndex : Nat),
      getKeyIndexFromMatch m cfg.groupIndex = some keyIndex →
      jsInGroup (ensureGroup st chunk) chunk
        ((matchAt m keyIndex).getD []) = false →
      (processMatch cfg chunk st source m).map
          (fun p => (p.1.counter,
            lookupGroup p.1 chunk ((matchAt m keyIndex).getD []))) =
        some (st.counter + (if cfg.mangle then 1 else 0),
          some (if cfg.mangle then genKey st.counter
            else (matchAt m keyIndex).getD [])) ∧
      ∀ w, w ≠ (matchAt m keyIndex).getD [] →
        (processMatch cfg chunk st source m).map
            (fun p => lookupGroup p.1 chunk w) =
          some (lookupGroup (ensureGroup st chunk) chunk w)) := by
  refine ⟨fun units => tablesWF_runAll cfg units initialState tablesWF_initial,
    ?_, ?_⟩
  · intro chunk st source m keyIndex hk hj
    rw [processMatch_repeat cfg chunk st source m keyIndex hk hj]
    rw [Option.map_some']
  · intro chunk st source m keyIndex hk hl
    obtain ⟨t, hg⟩ := ensureGroup_found st chunk
    have hv := lookup_none_table hg (jsInGroup_eq_false hl).1
    rw [processMatch_fresh cfg chunk st source m keyIndex hk hl]
    have hc0 : (ensureGroup st chunk).counter = st.counter :=
      ensureGroup_counter st chunk
    cases hm : cfg.mangle
    · simp only [Bool.false_eq_true, if_false, Option.map_some']
      constructor
      · have hcnt : (insertGroup (ensureGroup st chunk) chunk
            ((matchAt m keyIndex).getD [])
            ((matchAt m keyIndex).getD [])).counter = st.counter := hc0
        rw [lookupGroup_insert_self _ hg hv, hcnt]
        simp
      · intro w hw
        rw [lookupGroup_insert_other _ hg hw]
    · simp only [if_true, Option.map_some']
      constructor
      · have hcnt : (advanceCounter (insertGroup (ensureGroup st chunk) chunk
            ((matchAt m keyIndex).getD [])
            (genKey (ensureGroup st chunk).counter))).counter =
            st.counter + 1 := by
          show (insertGroup (ensureGroup st chunk) chunk _ _).counter + 1 = _
          rw [show (insertGroup (ensureGroup st chunk) chunk
            ((matchAt m keyIndex).getD [])
            (genKey (ensureGroup st chunk).counter)).counter =
              (ensureGroup st chunk).counter from rfl, hc0]
        rw [hcnt, lookupGroup_advanceCounter,
          lookupGroup_insert_self _ hg hv, hc0]
      · intro w hw
        rw [lookupGroup_advanceCounter, lookupGroup_insert_other _ hg hw]

theorem keyTable_assign_once_witness :
    (processMatch ⟨false, [], [1]⟩ ['c']
        ⟨[(['c'], [(['k'], ['k'])])], 0⟩ ['s']
        (MatchRec.mk ['f'] [some ['k']])).map Prod.fst =
      some ⟨[(['c'], [(['k'], ['k'])])], 0⟩ :=
  (keyTable_assign_once ⟨false, [], [1]⟩).2.1 ['c']
    ⟨[(['c'], [(['k'], ['k'])])], 0⟩ ['s'] (MatchRec.mk ['f'] [some ['k']])
    1 (by decide) (by decide)

/-! ## C7: non-mangling mode produces identity mappings -/

/-- All key-table entries map an original key to itself. -/
def IdTables (st : PluginState) : Prop :=
  ∀ p ∈ st.keys, ∀ q ∈ p.2, q.2 = q.1

theorem idTables_initial : IdTables initialState := by
  intro p hp
  simp [initialState] at hp

theorem idTables_ensureGroup {st : PluginState} (c : List Char)
    (h : IdTables st) : IdTables (ensureGroup st c) := by
  rw [ensureGroup]
  cases hf : assocFind st.keys c with
  | some t => exact h
  | none =>
    intro p hp q hq
    rcases List.mem_append.mp hp with hp | hp
    · exact h p hp q hq
    · simp only [List.mem_singleton] at hp
      rw [hp] at hq
      simp at hq

theorem idTables_insertGroup {st : PluginState} (c v : List Char)
    (h : IdTables st) : IdTables (insertGroup st c v v) := by
  intro p hp q hq
  rcases List.mem_map.mp hp with ⟨r, hr, rfl⟩
  by_cases hrc : r.1 = c
  · rw [if_pos hrc] at hq
    rcases List.mem_append.mp hq with hq | hq
    · exact h r hr q hq
    · simp only [List.mem_singleton] at hq
      rw [hq]
  · rw [if_neg hrc] at hq
    exact h r hr q hq

theorem idTables_processMatch {fr : List Char} {gi : List Nat}
    {chunk : List Char} {st : PluginState} {source : List Char} {m : MatchRec}
    {st' : PluginState} {source' : List Char} (hw : IdTables st)
    (h : processMatch ⟨false, fr, gi⟩ chunk st source m = some (st', source')) :
    IdTables st' := by
  cases hk : getKeyIndexFromMatch m gi with
  | none =>
    rw [(processMatch_none_iff _ _ _ _ _).mpr hk] at h
    exact absurd h (by simp)
  | some keyIndex =>
    have hw0 : IdTables (ensureGroup st chunk) := idTables_ensureGroup chunk hw
    cases hl : jsInGroup (ensureGroup st chunk) chunk
        ((matchAt m keyIndex).getD []) with
    | true =>
      rw [processMatch_repeat ⟨false, fr, gi⟩ chunk st source m keyIndex hk hl] at h
      have hst : st' = ensureGroup st chunk :=
        ((Prod.mk.injEq _ _ _ _ ▸ Option.some.inj h).1).symm
      rw [hst]
      exact hw0
    | false =>
      rw [processMatch_fresh ⟨false, fr, gi⟩ chunk st source m keyIndex hk hl] at h
      simp only [Bool.false_eq_true, if_false, Option.some.injEq,
        Prod.mk.injEq] at h
      rw [← h.1]
      exact idTables_insertGroup chunk _ hw0

theorem idTables_runMatches (fr : List Char) (gi : List Nat) (chunk : List Char) :
    ∀ (ms : List MatchRec) (st : PluginState) (source : List Char),
      IdTables st → IdTables (runMatches ⟨false, fr, gi⟩ chunk st source ms).1 := by
  intro ms
  induction ms with
  | nil => intro st source h; exact h
  | cons m rest ih =>
    intro st source h
    rw [runMatches]
    cases hp : processMatch ⟨false, fr, gi⟩ chunk st source m with
    | none => exact h
    | some p =>
      obtain ⟨st', source'⟩ := p
      exact ih st' source' (idTables_processMatch h hp)

theorem idTables_runAll (fr : List Char) (gi : List Nat) :
    ∀ (units : List (List Char × List Char × List MatchRec)) (st : PluginState),
      IdTables st → IdTables (runAll ⟨false, fr, gi⟩ st units).1 := by
  intro units
  induction units with
  | nil => intro st h; exact h
  | cons u rest ih =>
    intro st h
    obtain ⟨chunk, source, ms⟩ := u
    rw [runAll]
    have hu : IdTables (runUnit ⟨false, fr, gi⟩ chunk st source ms).1 := by
      rw [runUnit_fst]
      exact idTables_runMatches fr gi chunk ms st source h
    rcases hr : runUnit ⟨false, fr, gi⟩ chunk st source ms with ⟨st', source', errs⟩
    rw [hr] at hu
    cases errs with
    | nil => exact ih st' hu
    | cons e es => exact hu

theorem objSet_preserve_id :
    ∀ (acc : List (List Char × List Char)) (x : List Char),
      (∀ q ∈ acc, q.2 = q.1) → ∀ q ∈ objSet acc x x, q.2 = q.1 := by
  intro acc
  induction acc with
  | nil =>
    intro x _ q hq
    rw [objSet] at hq
    simp only [List.mem_singleton] at hq
    rw [hq]
  | cons p rest ih =>
    intro x hacc q hq
    obtain ⟨pk, pv⟩ := p
    rw [objSet] at hq
    by_cases hpx : pk = x
    · rw [if_pos hpx] at hq
      rcases List.mem_cons.mp hq with hh | hh
      · rw [hh, hpx]
      · exact hacc q (List.mem_cons_of_mem _ hh)
    · rw [if_neg hpx] at hq
      rcases List.mem_cons.mp hq with hh | hh
      · rw [hh]
        exact hacc (pk, pv) (List.mem_cons_self _ _)
      · exact ih x (fun r hr => hacc r (List.mem_cons_of_mem _ hr)) q hh

theorem flipObject_id :
    ∀ (t acc : List (List Char × List Char)),
      (∀ q ∈ acc, q.2 = q.1) → (∀ q ∈ t, q.2 = q.1) →
      ∀ q ∈ t.foldl (fun acc p => objSet acc p.2 p.1) acc, q.2 = q.1 := by
  intro t
  induction t with
  | nil => intro acc hacc _ q hq; exact hacc q hq
  | cons p rest ih =>
    intro acc hacc ht q hq
    rw [List.foldl_cons] at hq
    have hp : p.2 = p.1 := ht p (List.mem_cons_self _ _)
    have hacc' : ∀ r ∈ objSet acc p.2 p.1, r.2 = r.1 := by
      rw [hp]
      exact objSet_preserve_id acc p.1 hacc
    exact ih (objSet acc p.2 p.1) hacc'
      (fun r hr => ht r (List.mem_cons_of_mem _ hr)) q hq

/-- C7: in non-mangling mode every entry of the finalized Run Result — the
flipped per-group tables after processing any sequence of units from a fresh
state — satisfies assignedKey = originalKey. -/
theorem nonmangle_identity_runresult (fr : List Char) (gi : List Nat)
    (units : List (List Char × List Char × List MatchRec)) :
    ∀ p ∈ finalize (runAll ⟨false, fr, gi⟩ initialState units).1,
      ∀ q ∈ p.2, q.1 = q.2 := by
  intro p hp q hq
  have hid : IdTables (runAll ⟨false, fr, gi⟩ initialState units).1 :=
    idTables_runAll fr gi units initialState idTables_initial
  rcases List.mem_map.mp hp with ⟨r, hr, rfl⟩
  have := flipObject_id r.2 [] (by simp) (fun s hs => hid r hr s hs) q hq
  exact this.symm

theorem nonmangle_identity_runresult_witness :
    Prod.fst ((['k'], ['k']) : List Char × List Char) =
      Prod.snd ((['k'], ['k']) : List Char × List Char) :=
  nonmangle_identity_runresult [] [1]
    [(['c'], ['s'], [MatchRec.mk ['f'] [some ['k']]])]
    (['c'], [(['k'], ['k'])]) (by decide) (['k'], ['k']) (by decide)

/-! ## The module filter (`filterModule`) -/

/-- The non-`null` result of `subject.match(pattern)`: the full match
`matches[0]` and the capture groups `matches[1..]` (`none` for a group that
did not participate). -/
structure JsMatchResult where
  full : List Char
  groups : List (Option (List Char))

/-- A JS regular expression as `filterModule` consumes it: a function from
the subject string to the result of `String.prototype.match`. -/
def JsPattern : Type := List Char → Option JsMatchResult

/-- `matches[matches.length - 1]`: the last capture group, or the full match
when the pattern has no groups; `none` models `undefined` for a last group
that did not participate. -/
def lastMatchEntry (r : JsMatchResult) : Option (List Char) :=
  match r.groups.getLast? with
  | some g => g
  | none => some r.full

/-- The loop of `filterModule` with the subject threaded through the chain.
The subject is `none` when the previous pattern's last group was
`undefined`; calling `.match` on `undefined` throws a TypeError, modelled by
the `none` result. -/
def filterModuleAux : Option (List Char) → List JsPattern → Option Bool
  | _, [] => some true
  | none, _ :: _ => none
  | some subj, p :: rest =>
    match p subj with
    | none => some false
    | some r => filterModuleAux (lastMatchEntry r) rest

def filterModule (moduleRequest : List Char) (moduleFilter : List JsPattern) :
    Option Bool :=
  filterModuleAux (some moduleRequest) moduleFilter

def isLowerAZ (c : Char) : Bool := 'a' ≤ c && c ≤ 'z'

def isDigit09 (c : Char) : Bool := '0' ≤ c && c ≤ '9'

/-- A match of `/[a-z]+([0-9]+)\.js$/` anchored at the start of `s`. The
character classes `[a-z]`, `[0-9]`, `\.` are pairwise disjoint, so the greedy
runs are forced and the match at a given position is unique: a maximal
lowercase run, a maximal digit run (group 1), then exactly `.js` at the end
of the string. -/
def chainPat1At (s : List Char) : Option (List Char × List Char) :=
  let low := s.takeWhile isLowerAZ
  if low.isEmpty then none
  else
    let rest1 := s.drop low.length
    let dig := rest1.takeWhile isDigit09
    if dig.isEmpty then none
    else
      let rest2 := rest1.drop dig.length
      if rest2 = ".js".data then some (low ++ dig ++ rest2, dig) else none

/-- Leftmost match of `/[a-z]+([0-9]+)\.js$/`, as `String.match` finds it. -/
def chainPat1Search : List Char → Option (List Char × List Char)
  | [] => none
  | c :: rest =>
    match chainPat1At (c :: rest) with
    | some r => some r
    | none => chainPat1Search rest

def chainPat1 : JsPattern := fun s =>
  (chainPat1Search s).map (fun r => ⟨r.1, [some r.2]⟩)

/-- Substring occurrence, the match semantics of the literal regex `/12/`. -/
def hasSubstr (pat : List Char) : List Char → Bool
  | [] => pat.isEmpty
  | c :: rest => pat.isPrefixOf (c :: rest) || hasSubstr pat rest

/-- `/12/`: no capture groups, full match `"12"`. -/
def chainPat2 : JsPattern := fun s =>
  if hasSubstr "12".data s then some ⟨"12".data, []⟩ else none

/-- C6: the Module Filter applies the chain in order, rejecting on the first
non-match and feeding the last capturing group (the full match for a pattern
without groups) to the next pattern. On the chain
`[/[a-z]+([0-9]+)\.js$/, /12/]` it rejects `foobar11.js` and `foobar12.css`
and accepts `foobar12.js`; appending another `/12/` still accepts because a
group-less pattern passes its full match on. -/
theorem moduleFilter_chain_example :
    filterModule "foobar11.js".data [chainPat1, chainPat2] = some false ∧
      filterModule "foobar12.css".data [chainPat1, chainPat2] = some false ∧
      filterModule "foobar12.js".data [chainPat1, chainPat2] = some true ∧
      filterModule "foobar12.js".data [chainPat1, chainPat2, chainPat2] =
        some true := by
  refine ⟨?_, ?_, ?_, ?_⟩ <;> decide

/-- `/a(b)?/`: leftmost `a`; group 1 captures `b` when it directly follows
and otherwise does not participate (`undefined`). -/
def optGroupSearch : List Char → Option JsMatchResult
  | [] => none
  | c :: rest =>
    if c = 'a' then
      match rest with
      | 'b' :: _ => some ⟨['a', 'b'], [some ['b']]⟩
      | _ => some ⟨['a'], [none]⟩
    else optGroupSearch rest

def optGroupPat : JsPattern := fun s => optGroupSearch s

/-- C10: the Module Filter is partial at its interface: when a chain pattern
matches but its last capturing group does not participate, the next
iteration calls `.match` on `undefined`, which throws; the embedded
`filterModule` returns `Option` and this failure branch is reachable on the
concrete chain `[/a(b)?/, /12/]` applied to `"xa"`. -/
theorem moduleFilter_partial :
    filterModule "xa".data [optGroupPat, chainPat2] = none := by decide

/-! ## C8: chunk-name sanitization (`chunkName.replace(/[^a-z0-9.\-_]+/gi, '-')`) -/

/-- Membership in the class `[a-z0-9.\-_]` with the `i` flag. -/
def isSafeChar (c : Char) : Bool :=
  ('a' ≤ c && c ≤ 'z') || ('A' ≤ c && c ≤ 'Z') || ('0' ≤ c && c ≤ '9') ||
    c = '.' || c = '-' || c = '_'

/-- The replace with the `+`-quantified negated class: a maximal run of
characters outside the class becomes one `'-'`. The flag records whether the
scanner is inside such a run. -/
def safeChunkNameGo : Bool → List Char → List Char
  | _, [] => []
  | false, c :: rest =>
    if isSafeChar c then c :: safeChunkNameGo false rest
    else '-' :: safeChunkNameGo true rest
  | true, c :: rest =>
    if isSafeChar c then c :: safeChunkNameGo false rest
    else safeChunkNameGo true rest

def safeChunkName (s : List Char) : List Char := safeChunkNameGo false s

/-- The claim's sanitization: every character outside the class is
individually mapped to `'-'`, preserving the length. -/
def claimSanitize (s : List Char) : List Char :=
  s.map (fun c => if isSafeChar c then c else '-')

/-- C8 counterexample: the quantifier `+` in the sanitizing regex collapses
a run of disallowed characters into a single `'-'`, so on `"a!!b"` the code
produces `"a-b"` while the claim's character-for-character map gives
`"a--b"`. -/
theorem sanitize_claim_counterexample :
    safeChunkName "a!!b".data ≠ claimSanitize "a!!b".data := by decide

/-- The sanitizer as the regex reads: keep a safe character, replace a
maximal unsafe run by one `'-'`. -/
def specCollapse : List Char → List Char
  | [] => []
  | c :: rest =>
    if isSafeChar c then c :: specCollapse rest
    else '-' :: specCollapse (rest.dropWhile (fun d => !isSafeChar d))
termination_by s => s.length
decreasing_by
  · simp
  · have hsub : rest.dropWhile (fun d => !isSafeChar d) <:+ rest :=
      List.dropWhile_suffix _
    have := hsub.length_le
    simp only [List.length_cons]
    omega

theorem safeChunkNameGo_spec :
    ∀ (n : Nat) (s : List Char), s.length ≤ n →
      safeChunkNameGo false s = specCollapse s ∧
        safeChunkNameGo true s =
          specCollapse (s.dropWhile (fun d => !isSafeChar d)) := by
  intro n
  induction n with
  | zero =>
    intro s hs
    have hnil : s = [] := by
      cases s with
      | nil => rfl
      | cons c rest => simp at hs
    subst hnil
    refine ⟨?_, ?_⟩
    · rw [specCollapse]
      rfl
    · rw [List.dropWhile_nil, specCollapse]
      rfl
  | succ n ih =>
    intro s hs
    cases s with
    | nil =>
      refine ⟨?_, ?_⟩
      · rw [specCollapse]
        rfl
      · rw [List.dropWhile_nil, specCollapse]
        rfl
    | cons c rest =>
      have hr : rest.length ≤ n := by
        simp only [List.length_cons] at hs
        omega
      by_cases hc : isSafeChar c
      · constructor
        · rw [safeChunkNameGo, if_pos hc, specCollapse, if_pos hc,
            (ih rest hr).1]
        · rw [safeChunkNameGo, if_pos hc, List.dropWhile_cons]
          have hpc : (!isSafeChar c) = false := by rw [hc]; rfl
          rw [hpc]
          simp only [Bool.false_eq_true, if_false]
          rw [specCollapse, if_pos hc, (ih rest hr).1]
      · constructor
        · rw [safeChunkNameGo, if_neg hc, specCollapse, if_neg hc,
            (ih rest hr).2]
        · rw [safeChunkNameGo, if_neg hc, List.dropWhile_cons]
          have hb : isSafeChar c = false := by
            revert hc
            cases isSafeChar c <;> simp
          have hpc : (!isSafeChar c) = true := by rw [hb]; rfl
          rw [hpc]
          simp only [if_true]
          exact (ih rest hr).2

theorem safeChunkNameGo_chars :
    ∀ (s : List Char) (b : Bool) (c : Char),
      c ∈ safeChunkNameGo b s → isSafeChar c = true := by
  intro s
  induction s with
  | nil => intro b c hc; cases b <;> simp [safeChunkNameGo] at hc
  | cons a rest ih =>
    intro b c hc
    cases b with
    | false =>
      rw [safeChunkNameGo] at hc
      by_cases ha : isSafeChar a
      · rw [if_pos ha] at hc
        rcases List.mem_cons.mp hc with h | h
        · rw [h]; exact ha
        · exact ih false c h
      · rw [if_neg ha] at hc
        rcases List.mem_cons.mp hc with h | h
        · rw [h]; decide
        · exact ih true c h
    | true =>
      rw [safeChunkNameGo] at hc
      by_cases ha : isSafeChar a
      · rw [if_pos ha] at hc
        rcases List.mem_cons.mp hc with h | h
        · rw [h]; exact ha
        · exact ih false c h
      · rw [if_neg ha] at hc
        exact ih true c hc

/-- C8 (amended): when persisting, each maximal run of characters of a group
name outside `[A-Za-z0-9.\-_]` is replaced by a single `'-'` (so the
sanitized name can be shorter than the original), and every character of the
sanitized name lies in the class (with `'-'` itself in the class). -/
theorem sanitize_collapses_runs (s : List Char) :
    safeChunkName s = specCollapse s ∧
      ∀ c ∈ safeChunkName s, isSafeChar c = true :=
  ⟨(safeChunkNameGo_spec s.length s le_rfl).1,
    fun c hc => safeChunkNameGo_chars s false c hc⟩

/-! ## C4: construction-time configuration errors -/

/-- The recognized constructor options; `none` is an absent (falsy) option.
Only the presence of `functionPattern`/`functionReplace` matters to the
constructor check, so pattern contents are plain strings here. -/
structure PluginOptions where
  functionPattern : Option (List Char)
  functionReplace : Option (List Char)
  groupIndex : Option (Nat ⊕ List Nat)
  output : Option (List Char)
  mangle : Bool
deriving DecidableEq

/-- The resolved configuration of a constructed plugin
(`functionPattern = none` means the built-in default pattern). -/
structure PluginConfig where
  functionPattern : Option (List Char)
  functionReplace : List Char
  groupIndex : List Nat
  output : Option (List Char)
  mangle : Bool
deriving DecidableEq

def configErrorMsg : List Char :=
  "ExtractTranslationRegexPlugin: If you provide functionPattern, you must provide functionReplace".data

/-- The constructor `ExtractTranslationRegexPlugin(options)` (lines 51-67):
defaults are applied, a single `groupIndex` is wrapped into an array, and
the only throw is for a supplied `functionPattern` without
`functionReplace`. -/
def pluginInit (o : PluginOptions) : Except (List Char) PluginConfig :=
  if o.functionPattern.isSome && o.functionReplace.isNone then
    Except.error configErrorMsg
  else
    Except.ok
      ⟨o.functionPattern,
        o.functionReplace.getD "gettext($2$4$1$3$2$4".data,
        (match o.groupIndex with
          | none => [1, 3]
          | some (Sum.inl n) => [n]
          | some (Sum.inr l) => l),
        o.output,
        o.mangle⟩

def pluginInitOk (o : PluginOptions) : Bool :=
  match pluginInit o with
  | Except.ok _ => true
  | Except.error _ => false

/-- C4 (code bug): the constructor does throw for a custom `functionPattern`
without `functionReplace`, but constructing with `mangle` enabled and no
`functionReplace` succeeds, although both the claim and the plugin's own
README ("It will also refuse to run if you don't provide functionReplace
when mangling is turned on") require it to fail. -/
theorem pluginInit_mangle_not_rejected :
    pluginInitOk ⟨none, none, none, none, true⟩ = true ∧
      pluginInitOk ⟨some ['p'], none, none, none, false⟩ = false := by
  decide

/-! ## C2: the replacement template -/

def charDigitVal (c : Char) : Nat := c.toNat - 48

/-- Independent (simultaneous) resolution of group back-references, as the
claim reads it: scan the template once; `$d` for a digit `d` with
`1 ≤ d ≤ maxI` becomes `vals d`; everything else is copied; resolved text is
not rescanned. -/
def specResolve (vals : Nat → List Char) (maxI : Nat) : List Char → List Char
  | [] => []
  | c :: rest =>
    if c = '$' then
      match rest with
      | [] => [c]
      | d :: rest2 =>
        if isDigit09 d ∧ 1 ≤ charDigitVal d ∧ charDigitVal d ≤ maxI then
          vals (charDigitVal d) ++ specResolve vals maxI rest2
        else c :: specResolve vals maxI (d :: rest2)
    else c :: specResolve vals maxI rest

/-- C2 counterexample: mangling is on and the original key `a` is already
assigned the mangled key `0` in the group's table (as after an earlier unit
of the same group). On a new match of `a` the code builds the replacement
from the local `key` variable, which stays the ORIGINAL text (`key = value`)
because the table branch is skipped — it never reads the assigned key `0`.
The code rewrites `g(a)z g(a)` to `XaYz XaY`; the claim — the winning group
resolves to the assigned (mangled) key — predicts `X0Yz X0Y`. The first
conjunct also shows the table still assigns `0` to `a` in the resulting
state. -/
theorem replacement_claim_counterexample :
    (processMatch ⟨true, "X$1Y".data, [1]⟩ ['c']
        ⟨[(['c'], [(['a'], ['0'])])], 1⟩ "g(a)z g(a)".data
        ⟨"g(a)".data, [some ['a']]⟩).map
        (fun p => (lookupGroup p.1 ['c'] ['a'], p.2)) =
      some (some ['0'], "XaYz XaY".data) ∧
      replaceAll "g(a)".data
          (specResolve (fun i => resolvedGroupValue [1] 1 ['0'] i
            (matchAt ⟨"g(a)".data, [some ['a']]⟩ i)) 1 "X$1Y".data)
          "g(a)z g(a)".data = "X0Yz X0Y".data ∧
      ("XaYz XaY".data : List Char) ≠ "X0Yz X0Y".data := by
  refine ⟨?_, ?_, ?_⟩ <;> decide

/-- Segments of a well-formed replacement template: `'$'`-free literal runs
interleaved with single-digit group back-references. -/
inductive TemplSeg where
  | lit : List Char → TemplSeg
  | ref : Nat → TemplSeg

def renderSeg : TemplSeg → List Char
  | TemplSeg.lit l => l
  | TemplSeg.ref d => ['$', Nat.digitChar d]

def renderSegs : List TemplSeg → List Char
  | [] => []
  | s :: rest => renderSeg s ++ renderSegs rest

def goodSeg (maxI : Nat) : TemplSeg → Prop
  | TemplSeg.lit l => '$' ∉ l
  | TemplSeg.ref d => 1 ≤ d ∧ d ≤ maxI

def goodSegs (maxI : Nat) (segs : List TemplSeg) : Prop :=
  ∀ s ∈ segs, goodSeg maxI s

/-- Replace the reference to group `i` by the literal `v`. -/
def resolveRefTo (i : Nat) (v : List Char) : TemplSeg → TemplSeg
  | TemplSeg.ref d => if d = i then TemplSeg.lit v else TemplSeg.ref d
  | s => s

/-- Resolve every reference to a group `≤ k`. -/
def resolveSegsUpTo (vals : Nat → List Char) (k : Nat)
    (segs : List TemplSeg) : List TemplSeg :=
  segs.map (fun s => match s with
    | TemplSeg.ref d => if d ≤ k then TemplSeg.lit (vals d) else TemplSeg.ref d
    | s => s)

theorem goodSegs_mono {a b : Nat} (h : a ≤ b) {segs : List TemplSeg}
    (hg : goodSegs a segs) : goodSegs b segs := by
  intro s hs
  have := hg s hs
  cases s with
  | lit l => exact this
  | ref d => exact ⟨this.1, le_trans this.2 h⟩

theorem digitChar_facts :
    ∀ d, d ≤ 9 → 1 ≤ d →
      isDigit09 (Nat.digitChar d) = true ∧
        charDigitVal (Nat.digitChar d) = d ∧ Nat.digitChar d ≠ '$' := by
  decide

theorem dollarToken_eq :
    ∀ i, i ≤ 9 → 1 ≤ i → dollarToken i = ['$', Nat.digitChar i] := by
  decide

theorem digitChar_inj9 {d i : Nat} (hd9 : d ≤ 9) (hi9 : i ≤ 9)
    (hd1 : 1 ≤ d) (hi1 : 1 ≤ i) (hne : d ≠ i) :
    Nat.digitChar d ≠ Nat.digitChar i := by
  intro he
  have h1 := (digitChar_facts d hd9 hd1).2.1
  have h2 := (digitChar_facts i hi9 hi1).2.1
  rw [he] at h1
  rw [h2] at h1
  exact hne h1.symm

theorem replaceAll_dollar_lit (p rep : List Char) :
    ∀ (l t : List Char), '$' ∉ l →
      replaceAll ('$' :: p) rep (l ++ t) = l ++ replaceAll ('$' :: p) rep t := by
  intro l
  induction l with
  | nil => intro t _; rw [List.nil_append, List.nil_append]
  | cons c l' ih =>
    intro t hl
    have hpre : ¬ (('$' :: p).isPrefixOf (c :: (l' ++ t)) = true) := by
      intro hpre
      simp only [List.isPrefixOf, Bool.and_eq_true, beq_iff_eq] at hpre
      refine hl ?_
      rw [hpre.1]
      exact List.mem_cons_self _ _
    rw [List.cons_append,
      replaceAll_neg rep (by simp) hpre,
      ih t (fun h => hl (List.mem_cons_of_mem _ h)), List.cons_append]

theorem specResolve_cons (vals : Nat → List Char) (maxI : Nat) (c : Char)
    (rest : List Char) :
    specResolve vals maxI (c :: rest) =
      if c = '$' then
        (match rest with
          | [] => [c]
          | d :: rest2 =>
            if isDigit09 d ∧ 1 ≤ charDigitVal d ∧ charDigitVal d ≤ maxI then
              vals (charDigitVal d) ++ specResolve vals maxI rest2
            else c :: specResolve vals maxI (d :: rest2))
      else c :: specResolve vals maxI rest := by
  rw [specResolve.eq_def]

theorem specResolve_lit (vals : Nat → List Char) (maxI : Nat) :
    ∀ (l t : List Char), '$' ∉ l →
      specResolve vals maxI (l ++ t) = l ++ specResolve vals maxI t := by
  intro l
  induction l with
  | nil => intro t _; rw [List.nil_append, List.nil_append]
  | cons c l' ih =>
    intro t hl
    have hc : ¬ c = '$' := by
      intro h
      refine hl ?_
      rw [← h]
      exact List.mem_cons_self _ _
    rw [List.cons_append, specResolve_cons, if_neg hc,
      ih t (fun h => hl (List.mem_cons_of_mem _ h)), List.cons_append]

theorem replaceAll_token_segs (i : Nat) (h1 : 1 ≤ i) (h9 : i ≤ 9)
    (v : List Char) :
    ∀ (segs : List TemplSeg), goodSegs 9 segs →
      replaceAll (dollarToken i) v (renderSegs segs) =
        renderSegs (segs.map (resolveRefTo i v)) := by
  intro segs
  induction segs with
  | nil =>
    intro _
    rw [List.map_nil]
    show replaceAll (dollarToken i) v [] = renderSegs []
    rw [replaceAll_nil, if_neg (by rw [dollarToken_eq i h9 h1]; simp)]
    rfl
  | cons s rest ih =>
    intro hgood
    have hgr : goodSegs 9 rest := fun x hx => hgood x (List.mem_cons_of_mem _ hx)
    rw [List.map_cons]
    cases s with
    | lit l =>
      have hls : '$' ∉ l := hgood (TemplSeg.lit l) (List.mem_cons_self _ _)
      show replaceAll (dollarToken i) v (l ++ renderSegs rest) =
        l ++ renderSegs (rest.map (resolveRefTo i v))
      rw [dollarToken_eq i h9 h1, replaceAll_dollar_lit _ v l _ hls,
        ← dollarToken_eq i h9 h1, ih hgr]
    | ref d =>
      have hd : 1 ≤ d ∧ d ≤ 9 := hgood (TemplSeg.ref d) (List.mem_cons_self _ _)
      by_cases hdi : d = i
      · subst hdi
        show replaceAll (dollarToken d) v
            ('$' :: Nat.digitChar d :: renderSegs rest) =
          renderSegs (resolveRefTo d v (TemplSeg.ref d) ::
            rest.map (resolveRefTo d v))
        rw [dollarToken_eq d hd.2 hd.1]
        have hpre : (['$', Nat.digitChar d]).isPrefixOf
            ('$' :: Nat.digitChar d :: renderSegs rest) = true := by
          simp [List.isPrefixOf]
        rw [replaceAll_pos v (by simp) hpre]
        show v ++ replaceAll ['$', Nat.digitChar d] v (renderSegs rest) = _
        rw [← dollarToken_eq d hd.2 hd.1, ih hgr]
        show v ++ renderSegs (rest.map (resolveRefTo d v)) =
          renderSegs ((if d = d then TemplSeg.lit v else TemplSeg.ref d) ::
            rest.map (resolveRefTo d v))
        rw [if_pos rfl]
        rfl
      · show replaceAll (dollarToken i) v
            ('$' :: Nat.digitChar d :: renderSegs rest) =
          renderSegs (resolveRefTo i v (TemplSeg.ref d) ::
            rest.map (resolveRefTo i v))
        rw [dollarToken_eq i h9 h1]
        have hpre : ¬ ((['$', Nat.digitChar i]).isPrefixOf
            ('$' :: Nat.digitChar d :: renderSegs rest) = true) := by
          intro hp
          simp only [List.isPrefixOf, Bool.and_eq_true, beq_iff_eq] at hp
          exact digitChar_inj9 h9 hd.2 h1 hd.1 (fun h => hdi h.symm) hp.2.1
        rw [replaceAll_neg v (by simp) hpre]
        have hpre2 : ¬ ((['$', Nat.digitChar i]).isPrefixOf
            (Nat.digitChar d :: renderSegs rest) = true) := by
          intro hp
          simp only [List.isPrefixOf, Bool.and_eq_true, beq_iff_eq] at hp
          exact (digitChar_facts d hd.2 hd.1).2.2 hp.1.symm
        rw [replaceAll_neg v (by simp) hpre2,
          ← dollarToken_eq i h9 h1, ih hgr]
        show '$' :: Nat.digitChar d :: renderSegs (rest.map (resolveRefTo i v)) =
          renderSegs ((if d = i then TemplSeg.lit v else TemplSeg.ref d) ::
            rest.map (resolveRefTo i v))
        rw [if_neg hdi]
        rfl

theorem specResolve_segs (vals : Nat → List Char) (maxI : Nat) (h9 : maxI ≤ 9) :
    ∀ (segs : List TemplSeg), goodSegs maxI segs →
      specResolve vals maxI (renderSegs segs) =
        renderSegs (resolveSegsUpTo vals maxI segs) := by
  intro segs
  induction segs with
  | nil => intro _; rfl
  | cons s rest ih =>
    intro hgood
    have hgr : goodSegs maxI rest :=
      fun x hx => hgood x (List.mem_cons_of_mem _ hx)
    rw [resolveSegsUpTo, List.map_cons]
    cases s with
    | lit l =>
      have hls : '$' ∉ l := hgood (TemplSeg.lit l) (List.mem_cons_self _ _)
      show specResolve vals maxI (l ++ renderSegs rest) =
        renderSegs (TemplSeg.lit l :: rest.map _)
      rw [specResolve_lit vals maxI l _ hls, ih hgr, resolveSegsUpTo]
      rfl
    | ref d =>
      have hd : 1 ≤ d ∧ d ≤ maxI := hgood (TemplSeg.ref d) (List.mem_cons_self _ _)
      have hf := digitChar_facts d (le_trans hd.2 h9) hd.1
      show specResolve vals maxI ('$' :: Nat.digitChar d :: renderSegs rest) =
        renderSegs ((if d ≤ maxI then TemplSeg.lit (vals d) else TemplSeg.ref d) ::
          rest.map _)
      rw [specResolve_cons, if_pos rfl]
      show (if isDigit09 (Nat.digitChar d) ∧ 1 ≤ charDigitVal (Nat.digitChar d) ∧
            charDigitVal (Nat.digitChar d) ≤ maxI then
          vals (charDigitVal (Nat.digitChar d)) ++
            specResolve vals maxI (renderSegs rest)
        else '$' :: specResolve vals maxI (Nat.digitChar d :: renderSegs rest)) = _
      rw [if_pos ⟨hf.1, by rw [hf.2.1]; exact hd.1, by rw [hf.2.1]; exact hd.2⟩,
        hf.2.1, ih hgr, if_pos hd.2, resolveSegsUpTo]
      rfl

theorem resolveSegsUpTo_zero (vals : Nat → List Char) (N : Nat) :
    ∀ (segs : List TemplSeg), goodSegs N segs →
      resolveSegsUpTo vals 0 segs = segs := by
  intro segs
  induction segs with
  | nil => intro _; rfl
  | cons s rest ih =>
    intro hgood
    rw [resolveSegsUpTo, List.map_cons]
    have hr := ih (fun x hx => hgood x (List.mem_cons_of_mem _ hx))
    rw [resolveSegsUpTo] at hr
    rw [hr]
    cases s with
    | lit l => rfl
    | ref d =>
      have hd : 1 ≤ d ∧ d ≤ N := hgood (TemplSeg.ref d) (List.mem_cons_self _ _)
      have hd1 : 1 ≤ d := hd.1
      show (if d ≤ 0 then TemplSeg.lit (vals d) else TemplSeg.ref d) :: rest =
        TemplSeg.ref d :: rest
      rw [if_neg (by omega : ¬ d ≤ 0)]

theorem resolveSegsUpTo_succ (vals : Nat → List Char) (k : Nat)
    (segs : List TemplSeg) :
    (resolveSegsUpTo vals k segs).map (resolveRefTo (k + 1) (vals (k + 1))) =
      resolveSegsUpTo vals (k + 1) segs := by
  rw [resolveSegsUpTo, resolveSegsUpTo, List.map_map]
  have hfun : (resolveRefTo (k + 1) (vals (k + 1)) ∘ fun s =>
      match s with
      | TemplSeg.ref d => if d ≤ k then TemplSeg.lit (vals d) else TemplSeg.ref d
      | s => s) = (fun s =>
      match s with
      | TemplSeg.ref d =>
        if d ≤ k + 1 then TemplSeg.lit (vals d) else TemplSeg.ref d
      | s => s) := by
    funext s
    cases s with
    | lit l => rfl
    | ref d =>
      show resolveRefTo (k + 1) (vals (k + 1))
          (if d ≤ k then TemplSeg.lit (vals d) else TemplSeg.ref d) =
        (if d ≤ k + 1 then TemplSeg.lit (vals d) else TemplSeg.ref d)
      by_cases h1 : d ≤ k
      · rw [if_pos h1, if_pos (by omega)]
        rfl
      · rw [if_neg h1]
        show (if d = k + 1 then TemplSeg.lit (vals (k + 1)) else TemplSeg.ref d) = _
        by_cases h2 : d = k + 1
        · rw [if_pos h2, if_pos (by omega), h2]
        · rw [if_neg h2, if_neg (by omega)]
  rw [hfun]

theorem buildFold_resolves (vals : Nat → List Char) (N : Nat) (h9 : N ≤ 9)
    (hvals : ∀ j, 1 ≤ j → j ≤ N → '$' ∉ vals j) (segs : List TemplSeg)
    (hgood : goodSegs N segs) :
    ∀ k, k ≤ N →
      (List.range k).foldl
          (fun acc j => replaceAll (dollarToken (j + 1)) (vals (j + 1)) acc)
          (renderSegs segs) =
        renderSegs (resolveSegsUpTo vals k segs) := by
  intro k
  induction k with
  | zero =>
    intro _
    rw [List.range_zero, List.foldl_nil, resolveSegsUpTo_zero vals N segs hgood]
  | succ k ih =>
    intro hk
    rw [List.range_succ, List.foldl_append, List.foldl_cons, List.foldl_nil,
      ih (by omega)]
    have hmid : goodSegs 9 (resolveSegsUpTo vals k segs) := by
      intro s hs
      rcases List.mem_map.mp hs with ⟨s0, hs0, rfl⟩
      have hg0 := hgood s0 hs0
      cases s0 with
      | lit l => exact hg0
      | ref d =>
        by_cases hdk : d ≤ k
        · show goodSeg 9 (if d ≤ k then TemplSeg.lit (vals d) else TemplSeg.ref d)
          rw [if_pos hdk]
          exact hvals d hg0.1 (le_trans hdk (by omega))
        · show goodSeg 9 (if d ≤ k then TemplSeg.lit (vals d) else TemplSeg.ref d)
          rw [if_neg hdk]
          exact ⟨hg0.1, le_trans hg0.2 h9⟩
    rw [replaceAll_token_segs (k + 1) (by omega) (by omega) (vals (k + 1)) _ hmid,
      resolveSegsUpTo_succ]

theorem buildReplacement_eq_specResolve (gi : List Nat) (keyIndex : Nat)
    (key : List Char) (groups : List (Option (List Char)))
    (segs : List TemplSeg) (h9 : groups.length ≤ 9)
    (hgood : goodSegs groups.length segs)
    (hvals : ∀ j, 1 ≤ j → j ≤ groups.length →
      '$' ∉ resolvedGroupValue gi keyIndex key j (groups.getD (j - 1) none)) :
    buildReplacement (renderSegs segs) gi keyIndex key groups =
      specResolve (fun i => resolvedGroupValue gi keyIndex key i
        (groups.getD (i - 1) none)) groups.length (renderSegs segs) := by
  rw [buildReplacement]
  have hfold : (fun (acc : List Char) (j : Nat) =>
      replaceAll (dollarToken (j + 1))
        (resolvedGroupValue gi keyIndex key (j + 1) (groups.getD j none)) acc) =
      (fun (acc : List Char) (j : Nat) =>
        replaceAll (dollarToken (j + 1))
          ((fun i => resolvedGroupValue gi keyIndex key i
            (groups.getD (i - 1) none)) (j + 1)) acc) := by
    funext acc j
    simp
  rw [hfold,
    buildFold_resolves _ groups.length h9 hvals segs hgood groups.length le_rfl,
    specResolve_segs _ groups.length h9 segs hgood]

/-- The key the loop substitutes for the winning group: `key` stays the
ORIGINAL captured text whenever the JS `in` check answers true — the key is
an own entry of the group's table (a later occurrence, whose stored assigned
key is never read) or an `Object.prototype` property name such as
`toString` (never inserted at all) — and only otherwise is it the freshly
assigned key (the next generator value when mangling). -/
def matchKey (cfg : EngineCfg) (chunk : List Char) (st : PluginState)
    (m : MatchRec) (keyIndex : Nat) : List Char :=
  if jsInGroup (ensureGroup st chunk) chunk ((matchAt m keyIndex).getD []) then
    (matchAt m keyIndex).getD []
  else
    if cfg.mangle then genKey (ensureGroup st chunk).counter
    else (matchAt m keyIndex).getD []

/-- C2 (amended): when mangling is enabled, for each match the rewritten
text is obtained by replacing every literal occurrence of the full matched
substring in the unit's text with a replacement built from the template,
where each back-reference `$i` resolves to: the key the code computed for
this match (`matchKey`: the newly assigned key when the `in` check finds
the original key absent — neither an own table entry nor an
`Object.prototype` property name — and the original captured text
otherwise, i.e. on later occurrences and on prototype-named keys such as
`toString`; the stored assigned key is never read) if `i` is the winning
group, empty text for other key-eligible groups, and the group's own
captured text (empty if it did not participate) otherwise. The code
substitutes `$1`, `$2`, … sequentially on the evolving template, which
coincides with the independent resolution stated by the claim whenever the
template is a well-formed alternation of `'$'`-free literals and
single-digit references `$1..$9` within range and no resolved value
contains `'$'`. -/
theorem mangle_replacement_spec (cfg : EngineCfg) (chunk : List Char)
    (st : PluginState) (source : List Char) (m : MatchRec) (keyIndex : Nat)
    (segs : List TemplSeg)
    (hman : cfg.mangle = true)
    (hk : getKeyIndexFromMatch m cfg.groupIndex = some keyIndex)
    (htmpl : cfg.functionReplace = renderSegs segs)
    (h9 : m.groups.length ≤ 9)
    (hgood : goodSegs m.groups.length segs)
    (hvals : ∀ j, 1 ≤ j → j ≤ m.groups.length →
      '$' ∉ resolvedGroupValue cfg.groupIndex keyIndex
        (matchKey cfg chunk st m keyIndex) j (m.groups.getD (j - 1) none)) :
    (processMatch cfg chunk st source m).map Prod.snd =
      some (replaceAll m.full
        (specResolve (fun i => resolvedGroupValue cfg.groupIndex keyIndex
            (matchKey cfg chunk st m keyIndex) i (m.groups.getD (i - 1) none))
          m.groups.length cfg.functionReplace)
        source) := by
  cases hl : jsInGroup (ensureGroup st chunk) chunk
      ((matchAt m keyIndex).getD []) with
  | true =>
    rw [processMatch_repeat cfg chunk st source m keyIndex hk hl, hman]
    simp only [if_true, Option.map_some']
    have hmk : matchKey cfg chunk st m keyIndex = (matchAt m keyIndex).getD [] := by
      unfold matchKey
      rw [if_pos hl]
    have hBS := buildReplacement_eq_specResolve cfg.groupIndex keyIndex
      (matchKey cfg chunk st m keyIndex) m.groups segs h9 hgood hvals
    rw [htmpl, ← hmk, hBS]
  | false =>
    rw [processMatch_fresh cfg chunk st source m keyIndex hk hl, hman]
    simp only [if_true, Option.map_some']
    have hmk : matchKey cfg chunk st m keyIndex =
        genKey (ensureGroup st chunk).counter := by
      unfold matchKey
      rw [if_neg (by simp [hl]), if_pos hman]
    have hBS := buildReplacement_eq_specResolve cfg.groupIndex keyIndex
      (matchKey cfg chunk st m keyIndex) m.groups segs h9 hgood hvals
    rw [htmpl, ← hmk, hBS]

theorem mangle_replacement_spec_witness :
    (processMatch ⟨true, "X$1Y".data, [1]⟩ ['c']
        ⟨[(['c'], [(['a'], ['0'])])], 1⟩ "g(a)z g(a)".data
        ⟨"g(a)".data, [some ['a']]⟩).map Prod.snd =
      some (replaceAll "g(a)".data
        (specResolve (fun i => resolvedGroupValue [1] 1
            (matchKey ⟨true, "X$1Y".data, [1]⟩ ['c']
              ⟨[(['c'], [(['a'], ['0'])])], 1⟩ ⟨"g(a)".data, [some ['a']]⟩ 1)
            i ((⟨"g(a)".data, [some ['a']]⟩ : MatchRec).groups.getD (i - 1) none))
          1 "X$1Y".data)
        "g(a)z g(a)".data) :=
  mangle_replacement_spec ⟨true, "X$1Y".data, [1]⟩ ['c']
    ⟨[(['c'], [(['a'], ['0'])])], 1⟩ "g(a)z g(a)".data
    ⟨"g(a)".data, [some ['a']]⟩ 1
    [TemplSeg.lit ['X'], TemplSeg.ref 1, TemplSeg.lit ['Y']]
    rfl (by decide) (by decide) (by decide)
    (by
      intro s hs
      rcases List.mem_cons.mp hs with h | hs2
      · rw [h]; show '$' ∉ ['X']; decide
      · rcases List.mem_cons.mp hs2 with h | hs3
        · rw [h]; exact ⟨le_rfl, le_rfl⟩
        · rcases List.mem_cons.mp hs3 with h | hs4
          · rw [h]; show '$' ∉ ['Y']; decide
          · simp at hs4)
    (by
      intro j h1 h2
      have hj : j = 1 := by
        simp only [List.length_cons, List.length_nil] at h2
        omega
      rw [hj]
      decide)
